import Mathlib

/-!
Verification of the search-query analytics pipeline (src/streamlit_app.py).

The pipeline transforms one tabular dataset: header cleaning and duplicate
"Delta" disambiguation, numeric and percent coercion of cell values, keyword
row filtering, derived gap columns, log-scaled demand normalization, a weighted
opportunity score, an ordered bucket cascade and a fixed action lookup.

Modelling conventions:
- a pandas cell is `Cell`: missing (NaN/None), a numeric value, or a string;
  numeric values are modelled as rationals (IEEE rounding, infinities and the
  special float literals "inf"/"infinity" accepted by Python float() are
  outside the model; the literal "nan" parses to a NaN, which is missing, and
  the model maps it to missing directly),
- string manipulation (strip, replace, endswith) is modelled on the character
  list of the string by structural recursion,
- a dataframe is an ordered list of named columns (`Table`); lookup and
  assignment use the first column with a matching name, which matches pandas
  for the duplicate-free headers the pipeline produces after the Delta rename,
- missing-propagating arithmetic and the pandas rule that any comparison with
  NaN is False are made explicit (`osub`, `oLT`, `oGE`, `oGTc`, ...),
- real-valued derived columns (DemandScore, OpportunityScore) use `Real.log`,
  and the enriched frame is `PrepResult`: the filtered table plus the derived
  columns in the order the code appends them.
-/

set_option maxRecDepth 100000

namespace SQA

/-- A single cell of the raw table: missing (NaN/None), numeric, or string. -/
inductive Cell where
  | na : Cell
  | num : ℚ → Cell
  | str : String → Cell
deriving DecidableEq, Repr

/-- Python str.strip() on a character list: drop whitespace from both ends. -/
def trimChars (l : List Char) : List Char :=
  ((l.dropWhile Char.isWhitespace).reverse.dropWhile Char.isWhitespace).reverse

/-- Python s.replace(",", "") : remove every comma. -/
def removeCommas (l : List Char) : List Char :=
  l.filter (fun c => c ≠ ',')

/-- Python s.endswith("%") on a character list. -/
def endsWithPercent (l : List Char) : Bool :=
  match l.getLast? with
  | some c => c = '%'
  | none => false

/-- Value of a digit list read in base 10. -/
def digitsToNat (l : List Char) : Nat :=
  l.foldl (fun n c => 10 * n + (c.toNat - 48)) 0

/-- Parse an unsigned decimal numeral with optional fraction part and optional
exponent (the grammar accepted by Python float() on finite decimal input). -/
def parseUnsigned (cs : List Char) : Option ℚ :=
  let intPart := cs.takeWhile Char.isDigit
  let r1 := cs.dropWhile Char.isDigit
  let fracAndRest : List Char × List Char :=
    match r1 with
    | '.' :: t => (t.takeWhile Char.isDigit, t.dropWhile Char.isDigit)
    | _ => ([], r1)
  let fracPart := fracAndRest.1
  let r2 := fracAndRest.2
  if intPart.length + fracPart.length = 0 then none
  else
    let mant : ℚ := (digitsToNat (intPart ++ fracPart) : ℚ) / (10 ^ fracPart.length : ℚ)
    match r2 with
    | [] => some mant
    | e :: t =>
      if e = 'e' ∨ e = 'E' then
        let signAndDigits : Int × List Char :=
          match t with
          | '+' :: u => (1, u)
          | '-' :: u => (-1, u)
          | _ => (1, t)
        let expDigits := signAndDigits.2.takeWhile Char.isDigit
        let r3 := signAndDigits.2.dropWhile Char.isDigit
        if expDigits.length = 0 ∨ r3 ≠ [] then none
        else some (mant * (10 : ℚ) ^ (signAndDigits.1 * (digitsToNat expDigits : Int)))
      else none

/-- Python float() on a finite decimal string: optional surrounding
whitespace and sign, then an unsigned numeral; failure is `none`. -/
def parseChars (l : List Char) : Option ℚ :=
  match trimChars l with
  | '+' :: t => parseUnsigned t
  | '-' :: t => (parseUnsigned t).map (fun q => -q)
  | cs => parseUnsigned cs

/-- Embeds `_to_number`: missing stays missing, numbers pass through, a string
is stripped; an empty string is missing; a trailing percent sign means parse
the prefix (commas removed) and divide by 100; otherwise parse with commas
removed; every parse failure degrades to missing. -/
def toNumber : Cell → Option ℚ
  | .na => none
  | .num q => some q
  | .str x =>
    let s := trimChars x.data
    if s = [] then none
    else if endsWithPercent s then
      match parseChars (removeCommas s.dropLast) with
      | some v => some (v / 100)
      | none => none
    else parseChars (removeCommas s)

/-- Embeds `np.nanmedian` on a coerced column: the median of the present
values (missing skipped), averaging the two middle elements for even counts;
`none` when no value is present. -/
def sortedVals (xs : List ℚ) : List ℚ :=
  List.insertionSort (fun a b => a ≤ b) xs

def nanmedian (vs : List (Option ℚ)) : Option ℚ :=
  if (vs.filterMap id).isEmpty then none
  else if (vs.filterMap id).length % 2 = 1 then
    some ((sortedVals (vs.filterMap id)).getD ((vs.filterMap id).length / 2) 0)
  else
    some (((sortedVals (vs.filterMap id)).getD ((vs.filterMap id).length / 2 - 1) 0
      + (sortedVals (vs.filterMap id)).getD ((vs.filterMap id).length / 2) 0) / 2)

/-- Embeds `_coerce_percent`: coerce every cell with `_to_number`; if the
median of the present coerced values is strictly greater than 1, divide the
whole column by 100, otherwise leave it as coerced. -/
def coercePercentVals (col : List Cell) : List (Option ℚ) :=
  match nanmedian (col.map toNumber) with
  | some m =>
    if 1 < m then (col.map toNumber).map (Option.map (fun q => q / 100))
    else col.map toNumber
  | none => col.map toNumber

lemma nanmedian_eq_none_iff (vs : List (Option ℚ)) :
    nanmedian vs = none ↔ vs.filterMap id = [] := by
  constructor
  · intro hc
    by_contra hne
    unfold nanmedian at hc
    have hb : (vs.filterMap id).isEmpty = false := by
      cases hfe : vs.filterMap id with
      | nil => exact absurd hfe hne
      | cons a l => rfl
    rw [hb] at hc
    simp only [Bool.false_eq_true, if_false] at hc
    split at hc <;> exact Option.noConfusion hc
  · intro hc
    simp [nanmedian, hc]

/-- C5: the percent heuristic. If the median of the successfully coerced
values is strictly greater than 1 every value is divided by 100; if it is at
most 1 (including exactly 1) the column is returned as coerced, unchanged; a
column with no successfully coerced value stays all-missing. -/
theorem claim_C5 (col : List Cell) :
    (∀ m : ℚ, nanmedian (col.map toNumber) = some m → 1 < m →
      coercePercentVals col = (col.map toNumber).map (Option.map (fun q => q / 100)))
    ∧ (∀ m : ℚ, nanmedian (col.map toNumber) = some m → m ≤ 1 →
      coercePercentVals col = col.map toNumber)
    ∧ (nanmedian (col.map toNumber) = none →
      ∀ v ∈ coercePercentVals col, v = none) := by
  refine ⟨?_, ?_, ?_⟩
  · intro m hm h1
    unfold coercePercentVals
    rw [hm]
    dsimp only
    rw [if_pos h1]
  · intro m hm h1
    unfold coercePercentVals
    rw [hm]
    dsimp only
    rw [if_neg (not_lt.mpr h1)]
  · intro hm v hv
    unfold coercePercentVals at hv
    rw [hm] at hv
    have hnil := (nanmedian_eq_none_iff (col.map toNumber)).mp hm
    exact List.filterMap_eq_nil_iff.mp hnil v hv

/-- C5 witness: a column with values 3.2% (a percent string), 5 and a missing
cell has coerced median (0.032 + 5) / 2 = 2.516 > 1, so the whole column is
divided by 100. -/
theorem claim_C5_witness :
    (nanmedian ([Cell.str "3.2%", Cell.num 5, Cell.na].map toNumber) = some (629 / 250)
      ∧ (1 : ℚ) < 629 / 250)
    ∧ coercePercentVals [Cell.str "3.2%", Cell.num 5, Cell.na]
        = ([Cell.str "3.2%", Cell.num 5, Cell.na].map toNumber).map
            (Option.map (fun q => q / 100)) :=
  ⟨⟨by with_unfolding_all decide, by with_unfolding_all decide⟩,
    (claim_C5 [Cell.str "3.2%", Cell.num 5, Cell.na]).1 (629 / 250)
      (by with_unfolding_all decide) (by with_unfolding_all decide)⟩

/-! Duplicate "Delta" disambiguation (prep_df lines 159-169). -/

/-- Positions of headers literally equal to "Delta", in column order
(`[i for i,c in enumerate(cols) if c == "Delta"]`). -/
def deltaIdxs (cols : List String) : List Nat :=
  (cols.enum.filter (fun p => p.2 == "Delta")).map Prod.fst

/-- Embeds the rename block: with at least two "Delta" headers the first is
renamed "Delta (CR)" and the second "Delta (CTR)"; with exactly one it is
renamed "Delta (CR)"; otherwise nothing changes. -/
def renameDelta (cols : List String) : List String :=
  match deltaIdxs cols with
  | i :: j :: _ => (cols.set i "Delta (CR)").set j "Delta (CTR)"
  | [i] => cols.set i "Delta (CR)"
  | [] => cols

lemma renameDelta_nil {cols : List String} (h : deltaIdxs cols = []) :
    renameDelta cols = cols := by
  unfold renameDelta
  rw [h]

lemma renameDelta_one {cols : List String} {i : Nat} (h : deltaIdxs cols = [i]) :
    renameDelta cols = cols.set i "Delta (CR)" := by
  unfold renameDelta
  rw [h]

lemma renameDelta_two {cols : List String} {i j : Nat} {rest : List Nat}
    (h : deltaIdxs cols = i :: j :: rest) :
    renameDelta cols = (cols.set i "Delta (CR)").set j "Delta (CTR)" := by
  unfold renameDelta
  rw [h]

lemma mem_deltaIdxs_iff (cols : List String) (i : Nat) :
    i ∈ deltaIdxs cols ↔ cols[i]? = some "Delta" := by
  constructor
  · intro hi
    obtain ⟨⟨j, x⟩, hpf, rfl⟩ := List.mem_map.mp hi
    obtain ⟨hmem, hx⟩ := List.mem_filter.mp hpf
    have hx2 : x = "Delta" := by simpa using hx
    subst hx2
    exact List.mk_mem_enum_iff_getElem?.mp hmem
  · intro h
    exact List.mem_map.mpr ⟨(i, "Delta"),
      List.mem_filter.mpr ⟨List.mk_mem_enum_iff_getElem?.mpr h, by simp⟩, rfl⟩

/-- C4, counterexample to the claim as stated: with three "Delta" headers the
code still renames the first two (the guard is len >= 2, not len == 2), so
the headers do not stay unchanged. -/
theorem claim_C4_counterexample :
    renameDelta ["Delta", "Delta", "Delta"] ≠ ["Delta", "Delta", "Delta"] := by
  decide

/-- C4, amended: the positions in `deltaIdxs` are exactly the headers equal
to "Delta", in increasing column order; zero occurrences leave the headers
unchanged; exactly one renames it to "Delta (CR)"; two or more rename the
first to "Delta (CR)" and the second to "Delta (CTR)"; the length is
preserved, non-"Delta" headers are never touched, and with two or more
occurrences every position other than the first two is unchanged. -/
theorem claim_C4_amended (cols : List String) :
    (∀ i, i ∈ deltaIdxs cols ↔ cols[i]? = some "Delta")
    ∧ List.Sorted (fun a b => a < b) (deltaIdxs cols)
    ∧ (deltaIdxs cols = [] → renameDelta cols = cols)
    ∧ (∀ i, deltaIdxs cols = [i] → renameDelta cols = cols.set i "Delta (CR)")
    ∧ (∀ i j rest, deltaIdxs cols = i :: j :: rest →
        renameDelta cols = (cols.set i "Delta (CR)").set j "Delta (CTR)")
    ∧ (renameDelta cols).length = cols.length
    ∧ (∀ k : Nat, cols[k]? ≠ some "Delta" → (renameDelta cols)[k]? = cols[k]?)
    ∧ (∀ i j rest, deltaIdxs cols = i :: j :: rest → ∀ k : Nat, k ≠ i → k ≠ j →
        (renameDelta cols)[k]? = cols[k]?) := by
  refine ⟨mem_deltaIdxs_iff cols, ?_, ?_, ?_, ?_, ?_, ?_, ?_⟩
  · have h1 : List.Sublist (deltaIdxs cols) (cols.enum.map Prod.fst) :=
      ((List.filter_sublist _).map Prod.fst)
    rw [List.enum_map_fst] at h1
    exact List.Pairwise.sublist h1 (List.sorted_lt_range _)
  · exact renameDelta_nil
  · exact fun i h => renameDelta_one h
  · exact fun i j rest h => renameDelta_two h
  · unfold renameDelta
    split <;> simp [List.length_set]
  · intro k hk
    rcases hd : deltaIdxs cols with _ | ⟨i, _ | ⟨j, rest⟩⟩
    · rw [renameDelta_nil hd]
    · have hi : cols[i]? = some "Delta" :=
        (mem_deltaIdxs_iff cols i).mp (by rw [hd]; exact List.mem_singleton_self i)
      have hik : i ≠ k := fun he => hk (he ▸ hi)
      rw [renameDelta_one hd, List.getElem?_set_ne hik]
    · have hi : cols[i]? = some "Delta" :=
        (mem_deltaIdxs_iff cols i).mp (by rw [hd]; exact List.mem_cons_self i _)
      have hj : cols[j]? = some "Delta" :=
        (mem_deltaIdxs_iff cols j).mp (by rw [hd]; simp)
      have hik : i ≠ k := fun he => hk (he ▸ hi)
      have hjk : j ≠ k := fun he => hk (he ▸ hj)
      rw [renameDelta_two hd, List.getElem?_set_ne hjk, List.getElem?_set_ne hik]
  · intro i j rest hd k hki hkj
    rw [renameDelta_two hd, List.getElem?_set_ne (Ne.symm hkj), List.getElem?_set_ne (Ne.symm hki)]

/-- C4 witness: with headers ["A", "Delta"] there is exactly one "Delta"
occurrence, at position 1, and it is renamed to "Delta (CR)". -/
theorem claim_C4_witness :
    deltaIdxs ["A", "Delta"] = [1]
    ∧ renameDelta ["A", "Delta"] = (["A", "Delta"] : List String).set 1 "Delta (CR)" :=
  ⟨by decide, (claim_C4_amended ["A", "Delta"]).2.2.2.1 1 (by decide)⟩

/-! The dataframe model: an ordered list of named columns. -/

/-- A dataframe: columns in order, each a name with its cell values. -/
abbrev Table : Type := List (String × List Cell)

/-- Column headers, in order. -/
def headers (t : Table) : List String := t.map Prod.fst

/-- Number of rows: the length of the first column (all columns agree on a
well-formed frame). -/
def nrows (t : Table) : Nat :=
  match t with
  | [] => 0
  | c :: _ => c.2.length

/-- All columns have the row count of the frame. -/
def WFTable (t : Table) : Prop := ∀ p ∈ t, p.2.length = nrows t

instance (t : Table) : Decidable (WFTable t) :=
  inferInstanceAs (Decidable (∀ p ∈ t, p.2.length = nrows t))

/-- df[n]: the first column named n, if any. -/
def getCol (t : Table) (n : String) : Option (List Cell) :=
  match t with
  | [] => none
  | c :: rest => if c.1 = n then some c.2 else getCol rest n

/-- df[n] = vs: replace the first column named n, or append a new one. -/
def setCol (t : Table) (n : String) (vs : List Cell) : Table :=
  match t with
  | [] => [(n, vs)]
  | c :: rest => if c.1 = n then (n, vs) :: rest else c :: setCol rest n vs

/-- Rename the column at position i (used for the "Delta" disambiguation,
which assigns a rewritten header list back to df.columns). -/
def setName (t : Table) (i : Nat) (n : String) : Table :=
  match t[i]? with
  | some c => t.set i (n, c.2)
  | none => t

/-- df[n] = f(df[n]) when column n exists, else nothing. -/
def mapCol (t : Table) (n : String) (f : List Cell → List Cell) : Table :=
  match getCol t n with
  | some vs => setCol t n (f vs)
  | none => t

/-- One coercion loop: `for c in names: if c in df.columns: df[c] = f(df[c])`. -/
def coerceCols (t : Table) (names : List String) (f : List Cell → List Cell) : Table :=
  names.foldl (fun acc n => mapCol acc n f) t

/-- Pack a coerced value back into a cell (a numeric pandas column whose
missing entries are NaN). -/
def ofNum : Option ℚ → Cell
  | none => .na
  | some q => .num q

/-- A column passed through `_coerce_percent`. -/
def pctCells (vs : List Cell) : List Cell := (coercePercentVals vs).map ofNum

/-- A column passed through `.apply(_to_number)`. -/
def numCells (vs : List Cell) : List Cell := (vs.map toNumber).map ofNum

def PCT_COLS_CANON : List String :=
  ["Our Conversion Rate", "Market Conversion Rate",
   "Our Click Through Rate", "Market Click Through Rate"]

def NUM_COLS_CANON : List String :=
  ["Impressions: ASIN Count", "Impressions: Total Count",
   "Clicks: ASIN Count", "Clicks: Total Count",
   "Cart Adds: ASIN Count", "Cart Adds: Total Count",
   "Purchases: ASIN Count", "Purchases: Total Count"]

def SHARE_COLS_CANON : List String :=
  ["Impressions - ASIN Share", "Clicks - ASIN Share",
   "Add to Cart - ASIN Share", "Purchases - ASIN Share"]

def FUNNEL_DELTA_COLS : List String :=
  ["Delta - Impressions to Clicks", "Delta - Clicks to Add to Cart",
   "Delta - Add to Cart to Purchases"]

/-- The duplicate-"Delta" rename applied to the frame (prep_df lines 159-169):
the header list is rewritten by `renameDelta` and assigned back. -/
def stageRename (t : Table) : Table :=
  match deltaIdxs (headers t) with
  | i :: j :: _ => setName (setName t i "Delta (CR)") j "Delta (CTR)"
  | [i] => setName t i "Delta (CR)"
  | [] => t

/-- The four coercion loops of prep_df (lines 171-186), in source order:
percent columns plus the two renamed delta columns, the share columns, the
plain count columns, the three funnel delta columns. -/
def stageCoerce (t : Table) : Table :=
  let t1 := coerceCols t (PCT_COLS_CANON ++ ["Delta (CR)", "Delta (CTR)"]) pctCells
  let t2 := coerceCols t1 SHARE_COLS_CANON pctCells
  let t3 := coerceCols t2 NUM_COLS_CANON numCells
  coerceCols t3 FUNNEL_DELTA_COLS pctCells

/-- Python str() of a cell, as astype(str) applies it: NaN renders as the
string "nan"; a number renders as its decimal text (modelled with the
rational printer: what matters downstream is that it is neither empty nor
the string "nan", which holds for every finite float text); strings pass. -/
def cellToStr : Cell → String
  | .na => "nan"
  | .num q => toString q
  | .str s => s

/-- The row-filter predicate: a trimmed keyword survives when it is neither
empty nor the literal "nan". -/
def keepKeyword (s : String) : Bool := !(s == "") && !(s == "nan")

/-- Apply a boolean row mask to one column. -/
def applyMask : List Bool → List Cell → List Cell
  | b :: bs, v :: vs => if b then v :: applyMask bs vs else applyMask bs vs
  | _, _ => []

/-- Python str.strip() on a Lean string. -/
def strTrim (s : String) : String := ⟨trimChars s.data⟩

/-- The keyword row filter (prep_df lines 188-191): when a "Keyword" column
exists, stringify and strip it in place, then keep only the rows whose
keyword is neither "" nor "nan"; with no "Keyword" column nothing happens. -/
def stageFilter (t : Table) : Table :=
  match getCol t "Keyword" with
  | none => t
  | some ks =>
    let strs := ks.map (fun c => strTrim (cellToStr c))
    let mask := strs.map keepKeyword
    let t1 := setCol t "Keyword" (strs.map Cell.str)
    t1.map (fun c => (c.1, applyMask mask c.2))

/-- df.get(n, NaN) read as numbers: the coerced column when present, else a
missing value for every row (the scalar-NaN broadcast). -/
def getNumColD (t : Table) (n : String) : List (Option ℚ) :=
  match getCol t n with
  | some vs => vs.map toNumber
  | none => List.replicate (nrows t) none

/-- Market_Demand (prep_df lines 194-196): the total impressions column, or
the total clicks column when the former is entirely missing. -/
def marketDemandCol (t : Table) : List (Option ℚ) :=
  if (getNumColD t "Impressions: Total Count").all Option.isNone then
    getNumColD t "Clicks: Total Count"
  else getNumColD t "Impressions: Total Count"

/-- Missing-propagating subtraction of two columns (pandas series minus). -/
def osub (a b : Option ℚ) : Option ℚ :=
  match a, b with
  | some x, some y => some (x - y)
  | _, _ => none

def subCols (xs ys : List (Option ℚ)) : List (Option ℚ) := List.zipWith osub xs ys

/-- fillna(0).clip(lower=0) applied to one Market_Demand entry. -/
def clipD (d : Option ℚ) : ℚ := max (d.getD 0) 0

/-- np.log1p of the clipped demand entry. -/
noncomputable def demandScoreRaw (d : Option ℚ) : ℝ := Real.log (1 + (clipD d : ℝ))

/-- Series .max(): none on an empty column (pandas yields NaN there, and a
NaN never satisfies the rescale test). -/
noncomputable def listMaxR : List ℝ → Option ℝ
  | [] => none
  | x :: xs => some (xs.foldl max x)

/-- Demand normalization (prep_df lines 204-208): log1p of the clipped
demand, divided by the column maximum when that maximum is positive. -/
noncomputable def demandScores (ds : List (Option ℚ)) : List ℝ :=
  match listMaxR (ds.map demandScoreRaw) with
  | some m =>
    if 0 < m then (ds.map demandScoreRaw).map (fun x => x / m)
    else ds.map demandScoreRaw
  | none => ds.map demandScoreRaw

/-- `pos`: np.where(isna(x), 0, maximum(x, 0)) for one entry. -/
def posQ (x : Option ℚ) : ℚ :=
  match x with
  | none => 0
  | some v => max v 0

/-- The opportunity score column (prep_df lines 211-219): elementwise
0.55 * DemandScore + 0.20 * pos(ClickGap) + 0.15 * pos(ConvGap)
+ 0.10 * pos(ShareGap_Purchases). The trailing fillna(0) of the code is a
no-op in the model: every operand here is total. -/
noncomputable def score4 :
    List ℝ → List (Option ℚ) → List (Option ℚ) → List (Option ℚ) → List ℝ
  | d :: ds, a :: xs, b :: ys, c :: zs =>
    (0.55 * d + 0.20 * (posQ a : ℝ) + 0.15 * (posQ b : ℝ) + 0.10 * (posQ c : ℝ))
      :: score4 ds xs ys zs
  | _, _, _, _ => []

/-- Series greater-than scalar, with the pandas rule NaN-compare = False. -/
def oGTc (x : Option ℚ) (c : ℚ) : Bool :=
  match x with
  | some v => decide (c < v)
  | none => false

/-- Series less-than scalar, NaN-compare = False. -/
def oLTc (x : Option ℚ) (c : ℚ) : Bool :=
  match x with
  | some v => decide (v < c)
  | none => false

/-- Series greater-or-equal scalar, NaN-compare = False. -/
def oGEc (x : Option ℚ) (c : ℚ) : Bool :=
  match x with
  | some v => decide (c ≤ v)
  | none => false

/-- Series less-than series, any missing operand gives False. -/
def oLT (x y : Option ℚ) : Bool :=
  match x, y with
  | some a, some b => decide (a < b)
  | _, _ => false

/-- Series greater-or-equal series, any missing operand gives False. -/
def oGE (x y : Option ℚ) : Bool :=
  match x, y with
  | some a, some b => decide (b ≤ a)
  | _, _ => false

/-- Series times scalar: NaN times anything is NaN. -/
def omulc (x : Option ℚ) (c : ℚ) : Option ℚ := x.map (fun v => v * c)

/-- Rule 2: DemandScore > 0.55, impressions share > 0, clicks share below
85 percent of impressions share. -/
def rule2Cond (d : ℝ) (imp clk : Option ℚ) : Prop :=
  0.55 < d ∧ oGTc imp 0 = true ∧ oLT clk (omulc imp 0.85) = true

/-- Rule 3: DemandScore > 0.35, clicks share > 0, purchases share below
75 percent of clicks share. -/
def rule3Cond (d : ℝ) (clk pur : Option ℚ) : Prop :=
  0.35 < d ∧ oGTc clk 0 = true ∧ oLT pur (omulc clk 0.75) = true

/-- Rule 4: DemandScore > 0.35, purchases share at least 95 percent of
clicks share, impressions share below 0.06. -/
def rule4Cond (d : ℝ) (imp clk pur : Option ℚ) : Prop :=
  0.35 < d ∧ oGE pur (omulc clk 0.95) = true ∧ oLTc imp 0.06 = true

/-- Rule 5: impressions share at least 0.08 and purchases share at least
0.06. -/
def rule5Cond (imp pur : Option ℚ) : Prop :=
  oGEc imp 0.08 = true ∧ oGEc pur 0.06 = true

open Classical in
/-- The bucket cascade for one row (prep_df lines 226-234): start from the
default and let each matching rule overwrite, in source order, so the last
matching rule wins. -/
noncomputable def bucketOf (d : ℝ) (imp clk pur : Option ℚ) : String :=
  let b1 := "Ignore / Low Signal"
  let b2 := if rule2Cond d imp clk then "Ranking Opportunity" else b1
  let b3 := if rule3Cond d clk pur then "Conversion Problem" else b2
  let b4 := if rule4Cond d imp clk pur then "PPC Scaling Opportunity" else b3
  if rule5Cond imp pur then "Defend Position" else b4

/-- The bucket column, elementwise over demand score and the three shares. -/
noncomputable def bucket4 :
    List ℝ → List (Option ℚ) → List (Option ℚ) → List (Option ℚ) → List String
  | d :: ds, i :: xs, c :: ys, p :: zs => bucketOf d i c p :: bucket4 ds xs ys zs
  | _, _, _, _ => []

/-- The fixed action lookup (prep_df lines 237-247). -/
def actionOf (b : String) : String :=
  if b = "Ranking Opportunity" then
    "Launch/expand Exact + POE rank; validate relevance; tighten top-of-search placements; add to PLO (title/bullets/back-end) if truly core."
  else if b = "Conversion Problem" then
    "Fix listing first (main image/value props/price/reviews); then isolate query in Exact to measure; avoid brute-force spend."
  else if b = "PPC Scaling Opportunity" then
    "Scale PPC deliberately: raise bids/budgets where CPS holds; broaden match types; add defense targets; watch TACoS."
  else if b = "Defend Position" then
    "Defend: maintain Exact + defense; cap waste; monitor share drops weekly."
  else "Ignore for now, or investigate relevance if it keeps appearing."

/-- The enriched frame prep_df returns: the renamed, coerced, row-filtered
table together with the derived columns, in the order the code appends
them. -/
structure PrepResult where
  table : Table
  marketDemand : List (Option ℚ)
  clickGap : List (Option ℚ)
  convGap : List (Option ℚ)
  shareGapClicks : List (Option ℚ)
  shareGapPurchases : List (Option ℚ)
  demandScore : List ℝ
  opportunityScore : List ℝ
  bucket : List String
  suggestedAction : List String

/-- The whole core pipeline, prep_df (lines 154-250). -/
noncomputable def prepDf (t : Table) : PrepResult :=
  let t3 := stageFilter (stageCoerce (stageRename t))
  let md := marketDemandCol t3
  let cg := subCols (getNumColD t3 "Market Click Through Rate")
                    (getNumColD t3 "Our Click Through Rate")
  let vg := subCols (getNumColD t3 "Market Conversion Rate")
                    (getNumColD t3 "Our Conversion Rate")
  let sgc := subCols (getNumColD t3 "Clicks - ASIN Share")
                     (getNumColD t3 "Impressions - ASIN Share")
  let sgp := subCols (getNumColD t3 "Purchases - ASIN Share")
                     (getNumColD t3 "Clicks - ASIN Share")
  let dsc := demandScores md
  let osc := score4 dsc cg vg sgp
  let bk := bucket4 dsc
                    (getNumColD t3 "Impressions - ASIN Share")
                    (getNumColD t3 "Clicks - ASIN Share")
                    (getNumColD t3 "Purchases - ASIN Share")
  ⟨t3, md, cg, vg, sgc, sgp, dsc, osc, bk, bk.map actionOf⟩

/-! Shape lemmas: the stages preserve well-formedness and row counts. -/

lemma WF_of_all {u : Table} {L : Nat} (h : ∀ p ∈ u, p.2.length = L) : WFTable u := by
  cases u with
  | nil => intro p hp; cases hp
  | cons c rest =>
    intro p hp
    have hc : c.2.length = L := h c (List.mem_cons_self c rest)
    have : nrows (c :: rest) = L := hc
    rw [this]
    exact h p hp

lemma getCol_mem {t : Table} {n : String} {vs : List Cell}
    (h : getCol t n = some vs) : (n, vs) ∈ t := by
  induction t with
  | nil => exact Option.noConfusion h
  | cons c rest ih =>
    unfold getCol at h
    by_cases hc : c.1 = n
    · rw [if_pos hc] at h
      have hv : c.2 = vs := Option.some.inj h
      have : c = (n, vs) := by
        cases c
        simp_all
      rw [← this]
      exact List.mem_cons_self c rest
    · rw [if_neg hc] at h
      exact List.mem_cons_of_mem c (ih h)

lemma setCol_mem {t : Table} {n : String} {vs : List Cell} :
    ∀ p ∈ setCol t n vs, p ∈ t ∨ p = (n, vs) := by
  induction t with
  | nil =>
    intro p hp
    unfold setCol at hp
    right
    simpa using hp
  | cons c rest ih =>
    intro p hp
    unfold setCol at hp
    by_cases hc : c.1 = n
    · rw [if_pos hc] at hp
      rcases List.mem_cons.mp hp with h1 | h1
      · right; exact h1
      · left; exact List.mem_cons_of_mem c h1
    · rw [if_neg hc] at hp
      rcases List.mem_cons.mp hp with h1 | h1
      · left; rw [h1]; exact List.mem_cons_self c rest
      · rcases ih p h1 with h2 | h2
        · left; exact List.mem_cons_of_mem c h2
        · right; exact h2

lemma nrows_setCol {t : Table} {n : String} {vs : List Cell}
    (h : vs.length = nrows t) : nrows (setCol t n vs) = nrows t := by
  cases t with
  | nil => exact h
  | cons c rest =>
    unfold setCol
    by_cases hc : c.1 = n
    · rw [if_pos hc]; exact h
    · rw [if_neg hc]; rfl

lemma WF_setCol {t : Table} {n : String} {vs : List Cell}
    (hWF : WFTable t) (h : vs.length = nrows t) : WFTable (setCol t n vs) := by
  have hn := nrows_setCol (t := t) (n := n) h
  intro p hp
  rw [hn]
  rcases setCol_mem p hp with h1 | h1
  · exact hWF p h1
  · rw [h1]; exact h

lemma nrows_mapCol {t : Table} {n : String} {f : List Cell → List Cell}
    (hWF : WFTable t) (hf : ∀ vs, (f vs).length = vs.length) :
    nrows (mapCol t n f) = nrows t := by
  unfold mapCol
  cases hg : getCol t n with
  | none => rfl
  | some vs =>
    have hlen : vs.length = nrows t := hWF _ (getCol_mem hg)
    exact nrows_setCol (by rw [hf]; exact hlen)

lemma WF_mapCol {t : Table} {n : String} {f : List Cell → List Cell}
    (hWF : WFTable t) (hf : ∀ vs, (f vs).length = vs.length) :
    WFTable (mapCol t n f) := by
  unfold mapCol
  cases hg : getCol t n with
  | none => exact hWF
  | some vs =>
    have hlen : vs.length = nrows t := hWF _ (getCol_mem hg)
    exact WF_setCol hWF (by rw [hf]; exact hlen)

lemma WF_coerceCols {t : Table} (names : List String) {f : List Cell → List Cell}
    (hWF : WFTable t) (hf : ∀ vs, (f vs).length = vs.length) :
    WFTable (coerceCols t names f) ∧ nrows (coerceCols t names f) = nrows t := by
  induction names generalizing t with
  | nil => exact ⟨hWF, rfl⟩
  | cons n rest ih =>
    have h1 := WF_mapCol (n := n) hWF hf
    have h2 := nrows_mapCol (n := n) hWF hf
    have h3 := ih h1
    exact ⟨h3.1, by rw [coerceCols] at h3 ⊢; rw [List.foldl_cons] at *; rw [h3.2, h2]⟩

lemma length_coercePercentVals (col : List Cell) :
    (coercePercentVals col).length = col.length := by
  unfold coercePercentVals
  cases nanmedian (col.map toNumber) with
  | none => simp
  | some m =>
    dsimp only
    split <;> simp

lemma length_pctCells (vs : List Cell) : (pctCells vs).length = vs.length := by
  unfold pctCells
  rw [List.length_map, length_coercePercentVals]

lemma length_numCells (vs : List Cell) : (numCells vs).length = vs.length := by
  unfold numCells
  simp

lemma nrows_setName {t : Table} {i : Nat} {n : String} :
    nrows (setName t i n) = nrows t := by
  unfold setName
  cases hg : t[i]? with
  | none => rfl
  | some c =>
    cases t with
    | nil => exact Option.noConfusion hg
    | cons hd rest =>
      cases i with
      | zero =>
        have : hd = c := by simpa using hg
        rw [← this]
        rfl
      | succ k => rfl

lemma WF_setName {t : Table} {i : Nat} {n : String}
    (hWF : WFTable t) : WFTable (setName t i n) := by
  unfold setName
  cases hg : t[i]? with
  | none => exact hWF
  | some c =>
    have hcm : c ∈ t := List.getElem?_mem hg
    intro p hp
    have hn : nrows (t.set i (n, c.2)) = nrows (setName t i n) := by
      unfold setName
      rw [hg]
    rw [hn, nrows_setName]
    rcases List.mem_or_eq_of_mem_set hp with h1 | h1
    · exact hWF p h1
    · rw [h1]
      exact hWF c hcm

lemma WF_stageRename {t : Table} (hWF : WFTable t) :
    WFTable (stageRename t) ∧ nrows (stageRename t) = nrows t := by
  unfold stageRename
  cases deltaIdxs (headers t) with
  | nil => exact ⟨hWF, rfl⟩
  | cons i rest =>
    cases rest with
    | nil => exact ⟨WF_setName hWF, nrows_setName⟩
    | cons j rest2 =>
      refine ⟨WF_setName (WF_setName hWF), ?_⟩
      rw [nrows_setName, nrows_setName]

lemma WF_stageCoerce {t : Table} (hWF : WFTable t) :
    WFTable (stageCoerce t) ∧ nrows (stageCoerce t) = nrows t := by
  unfold stageCoerce
  have h1 := WF_coerceCols (PCT_COLS_CANON ++ ["Delta (CR)", "Delta (CTR)"])
    hWF length_pctCells
  have h2 := WF_coerceCols SHARE_COLS_CANON h1.1 length_pctCells
  have h3 := WF_coerceCols NUM_COLS_CANON h2.1 length_numCells
  have h4 := WF_coerceCols FUNNEL_DELTA_COLS h3.1 length_pctCells
  exact ⟨h4.1, by rw [h4.2, h3.2, h2.2, h1.2]⟩

lemma applyMask_length {bs : List Bool} {vs : List Cell}
    (h : bs.length = vs.length) : (applyMask bs vs).length = bs.count true := by
  induction bs generalizing vs with
  | nil => cases vs <;> simp [applyMask]
  | cons b rest ih =>
    cases vs with
    | nil => exact absurd h (by simp)
    | cons v vrest =>
      have hlen : rest.length = vrest.length := by simpa using h
      unfold applyMask
      cases b with
      | true => simp [ih hlen, List.count_cons]
      | false => simp [ih hlen, List.count_cons]

lemma WF_stageFilter {t : Table} (hWF : WFTable t) : WFTable (stageFilter t) := by
  unfold stageFilter
  cases hg : getCol t "Keyword" with
  | none => exact hWF
  | some ks =>
    have hks : ks.length = nrows t := hWF _ (getCol_mem hg)
    dsimp only
    set strs := ks.map (fun c => strTrim (cellToStr c)) with hstrs
    set mask := strs.map keepKeyword with hmask
    have hmlen : mask.length = nrows t := by
      rw [hmask, hstrs]
      simpa using hks
    have ht1 : WFTable (setCol t "Keyword" (strs.map Cell.str)) :=
      WF_setCol hWF (by rw [hstrs]; simpa using hks)
    have ht1n : nrows (setCol t "Keyword" (strs.map Cell.str)) = nrows t :=
      nrows_setCol (by rw [hstrs]; simpa using hks)
    apply WF_of_all (L := mask.count true)
    intro p hp
    obtain ⟨q, hq, hqe⟩ := List.mem_map.mp hp
    rw [← hqe]
    exact applyMask_length (by rw [hmlen, ← ht1n]; exact (ht1 q hq).symm)

lemma WF_prepTable {t : Table} (hWF : WFTable t) :
    WFTable (stageFilter (stageCoerce (stageRename t))) :=
  WF_stageFilter (WF_stageCoerce (WF_stageRename hWF).1).1

lemma length_getNumColD {t : Table} {n : String} (hWF : WFTable t) :
    (getNumColD t n).length = nrows t := by
  unfold getNumColD
  cases hg : getCol t n with
  | none => simp
  | some vs =>
    have := hWF _ (getCol_mem hg)
    simpa using this

lemma length_marketDemandCol {t : Table} (hWF : WFTable t) :
    (marketDemandCol t).length = nrows t := by
  unfold marketDemandCol
  split <;> exact length_getNumColD hWF

lemma length_subCols (xs ys : List (Option ℚ)) :
    (subCols xs ys).length = min xs.length ys.length := by
  unfold subCols
  exact List.length_zipWith _ _ _

lemma length_demandScores (ds : List (Option ℚ)) :
    (demandScores ds).length = ds.length := by
  unfold demandScores
  cases listMaxR (ds.map demandScoreRaw) with
  | none => simp
  | some m =>
    dsimp only
    split <;> simp

lemma length_score4 (ds : List ℝ) (xs ys zs : List (Option ℚ)) :
    (score4 ds xs ys zs).length
      = min ds.length (min xs.length (min ys.length zs.length)) := by
  induction ds generalizing xs ys zs with
  | nil => simp [score4]
  | cons d rest ih =>
    cases xs with
    | nil => simp [score4]
    | cons a xrest =>
      cases ys with
      | nil => simp [score4]
      | cons b yrest =>
        cases zs with
        | nil => simp [score4]
        | cons c zrest =>
          have := ih xrest yrest zrest
          simp only [score4, List.length_cons, this]
          omega

lemma length_bucket4 (ds : List ℝ) (xs ys zs : List (Option ℚ)) :
    (bucket4 ds xs ys zs).length
      = min ds.length (min xs.length (min ys.length zs.length)) := by
  induction ds generalizing xs ys zs with
  | nil => simp [bucket4]
  | cons d rest ih =>
    cases xs with
    | nil => simp [bucket4]
    | cons a xrest =>
      cases ys with
      | nil => simp [bucket4]
      | cons b yrest =>
        cases zs with
        | nil => simp [bucket4]
        | cons c zrest =>
          have := ih xrest yrest zrest
          simp only [bucket4, List.length_cons, this]
          omega

/-! Demand normalization: facts about demandScores. -/

lemma clipD_nonneg (d : Option ℚ) : 0 ≤ clipD d := le_max_right _ _

lemma demandScoreRaw_nonneg (d : Option ℚ) : 0 ≤ demandScoreRaw d := by
  unfold demandScoreRaw
  apply Real.log_nonneg
  have : (0 : ℝ) ≤ (clipD d : ℝ) := by exact_mod_cast clipD_nonneg d
  linarith

lemma demandScoreRaw_mono {a b : Option ℚ} (h : clipD a ≤ clipD b) :
    demandScoreRaw a ≤ demandScoreRaw b := by
  unfold demandScoreRaw
  have ha : (0 : ℝ) ≤ (clipD a : ℝ) := by exact_mod_cast clipD_nonneg a
  have hb : (0 : ℝ) ≤ (clipD b : ℝ) := by exact_mod_cast clipD_nonneg b
  have hab : (clipD a : ℝ) ≤ (clipD b : ℝ) := by exact_mod_cast h
  rw [Real.log_le_log_iff (by linarith) (by linarith)]
  linarith

lemma le_foldl_max (xs : List ℝ) (a : ℝ) : a ≤ xs.foldl max a := by
  induction xs generalizing a with
  | nil => exact le_refl a
  | cons x rest ih => exact le_trans (le_max_left a x) (ih (max a x))

lemma mem_le_foldl_max (xs : List ℝ) (a : ℝ) : ∀ x ∈ xs, x ≤ xs.foldl max a := by
  induction xs generalizing a with
  | nil => intro x hx; cases hx
  | cons y rest ih =>
    intro x hx
    rcases List.mem_cons.mp hx with h1 | h1
    · rw [h1]
      exact le_trans (le_max_right a y) (le_foldl_max rest (max a y))
    · exact ih (max a y) x h1

lemma foldl_max_mem (xs : List ℝ) (a : ℝ) :
    xs.foldl max a = a ∨ xs.foldl max a ∈ xs := by
  induction xs generalizing a with
  | nil => left; rfl
  | cons x rest ih =>
    rcases ih (max a x) with h1 | h1
    · rcases max_choice a x with h2 | h2
      · left; rw [List.foldl_cons, h1, h2]
      · right; rw [List.foldl_cons, h1, h2]; exact List.mem_cons_self x rest
    · right; exact List.mem_cons_of_mem x h1

lemma listMaxR_spec {xs : List ℝ} {m : ℝ} (h : listMaxR xs = some m) :
    (∀ r ∈ xs, r ≤ m) ∧ m ∈ xs := by
  cases xs with
  | nil => exact Option.noConfusion h
  | cons x rest =>
    have hm : m = rest.foldl max x := (Option.some.inj h).symm
    constructor
    · intro r hr
      rcases List.mem_cons.mp hr with h1 | h1
      · rw [h1, hm]; exact le_foldl_max rest x
      · rw [hm]; exact mem_le_foldl_max rest x r h1
    · rw [hm]
      rcases foldl_max_mem rest x with h1 | h1
      · rw [h1]; exact List.mem_cons_self x rest
      · exact List.mem_cons_of_mem x h1

lemma listMaxR_eq_none_iff (xs : List ℝ) : listMaxR xs = none ↔ xs = [] := by
  cases xs <;> simp [listMaxR]

lemma demandScores_bounds (ds : List (Option ℚ)) :
    ∀ x ∈ demandScores ds, 0 ≤ x ∧ x ≤ 1 := by
  intro x hx
  unfold demandScores at hx
  cases hmx : listMaxR (ds.map demandScoreRaw) with
  | none =>
    rw [hmx] at hx
    dsimp only at hx
    rw [(listMaxR_eq_none_iff _).mp hmx] at hx
    cases hx
  | some m =>
    rw [hmx] at hx
    have hspec := listMaxR_spec hmx
    dsimp only at hx
    by_cases hm : 0 < m
    · rw [if_pos hm] at hx
      obtain ⟨r, hr, hre⟩ := List.mem_map.mp hx
      obtain ⟨d, _, hde⟩ := List.mem_map.mp hr
      have hr0 : 0 ≤ r := hde ▸ demandScoreRaw_nonneg d
      have hrm : r ≤ m := hspec.1 r hr
      constructor
      · rw [← hre]; exact div_nonneg hr0 (le_of_lt hm)
      · rw [← hre]; exact (div_le_one hm).mpr hrm
    · rw [if_neg hm] at hx
      obtain ⟨d, _, hde⟩ := List.mem_map.mp hx
      have hx0 : 0 ≤ x := hde ▸ demandScoreRaw_nonneg d
      have hxm : x ≤ m := hspec.1 x hx
      have : x = 0 := le_antisymm (hxm.trans (not_lt.mp hm)) hx0
      exact ⟨hx0, by rw [this]; norm_num⟩

lemma demandScores_nonneg (ds : List (Option ℚ)) :
    ∀ x ∈ demandScores ds, 0 ≤ x :=
  fun x hx => (demandScores_bounds ds x hx).1

lemma prepDf_demandScore_eq (t : Table) :
    (prepDf t).demandScore = demandScores ((prepDf t).marketDemand) := by
  simp only [prepDf]

/-- C3: the demand normalization boundary. The pipeline's DemandScore column
is `demandScores` of its Market_Demand column; if every demand entry is 0 or
missing every score is 0; if some entry is positive then every score lies in
[0, 1] and any row whose clipped demand is maximal scores exactly 1 (the
score is log(1 + d), missing treated as 0 and negatives clamped to 0,
divided by the column maximum when that maximum is positive). -/
theorem claim_C3 (ds : List (Option ℚ)) :
    (∀ t : Table, (prepDf t).demandScore = demandScores ((prepDf t).marketDemand))
    ∧ ((∀ d ∈ ds, d = none ∨ d = some 0) → ∀ x ∈ demandScores ds, x = 0)
    ∧ (∀ q : ℚ, some q ∈ ds → 0 < q →
        (∀ x ∈ demandScores ds, 0 ≤ x ∧ x ≤ 1)
        ∧ (∀ i : Nat, i < ds.length →
            (∀ j : Nat, j < ds.length →
              clipD (ds.getD j none) ≤ clipD (ds.getD i none)) →
            (demandScores ds)[i]? = some 1)) := by
  refine ⟨prepDf_demandScore_eq, ?_, ?_⟩
  · intro hall x hx
    have hraw : ∀ r ∈ ds.map demandScoreRaw, r = 0 := by
      intro r hr
      obtain ⟨d, hd, hde⟩ := List.mem_map.mp hr
      have hc : clipD d = 0 := by
        rcases hall d hd with h1 | h1 <;> rw [h1] <;> rfl
      rw [← hde]
      unfold demandScoreRaw
      rw [hc]
      norm_num
    unfold demandScores at hx
    cases hmx : listMaxR (ds.map demandScoreRaw) with
    | none =>
      rw [hmx] at hx
      exact hraw x hx
    | some m =>
      rw [hmx] at hx
      have hm0 : m = 0 := hraw m (listMaxR_spec hmx).2
      dsimp only at hx
      rw [hm0] at hx
      rw [if_neg (lt_irrefl 0)] at hx
      exact hraw x hx
  · intro q hq hqpos
    refine ⟨demandScores_bounds ds, ?_⟩
    intro i hi hmax
    have hne : ds.map demandScoreRaw ≠ [] := by
      intro he
      rw [List.map_eq_nil_iff] at he
      rw [he] at hq
      cases hq
    obtain ⟨m, hmx⟩ : ∃ m, listMaxR (ds.map demandScoreRaw) = some m := by
      cases hl : listMaxR (ds.map demandScoreRaw) with
      | none => exact absurd ((listMaxR_eq_none_iff _).mp hl) hne
      | some m => exact ⟨m, rfl⟩
    have hspec := listMaxR_spec hmx
    -- the raw score of the positive entry is positive, so the maximum is
    have hqmem : demandScoreRaw (some q) ∈ ds.map demandScoreRaw :=
      List.mem_map.mpr ⟨some q, hq, rfl⟩
    have hqraw : 0 < demandScoreRaw (some q) := by
      unfold demandScoreRaw
      apply Real.log_pos
      have hcq : clipD (some q) = q := by
        unfold clipD
        simp [Option.getD]
        exact le_of_lt hqpos
      rw [hcq]
      have : (0 : ℝ) < (q : ℝ) := by exact_mod_cast hqpos
      linarith
    have hmpos : 0 < m := lt_of_lt_of_le hqraw (hspec.1 _ hqmem)
    -- the raw score at the argmax row equals the maximum
    have hgi : ds[i]? = some ds[i] := List.getElem?_eq_getElem hi
    have hrawi : (ds.map demandScoreRaw)[i]? = some (demandScoreRaw ds[i]) := by
      rw [List.getElem?_map, hgi]
      rfl
    have hile : demandScoreRaw ds[i] ≤ m :=
      hspec.1 _ (List.getElem?_mem hrawi)
    have hmle : m ≤ demandScoreRaw ds[i] := by
      obtain ⟨b, hb, hbe⟩ := List.mem_map.mp hspec.2
      obtain ⟨j, hj, hje⟩ := List.mem_iff_getElem.mp hb
      have hcb : clipD b ≤ clipD ds[i] := by
        have h1 : ds.getD j none = b := by
          rw [List.getD_eq_getElem?_getD, List.getElem?_eq_getElem hj, hje]
          rfl
        have h2 : ds.getD i none = ds[i] := by
          rw [List.getD_eq_getElem?_getD, hgi]
          rfl
        have := hmax j hj
        rw [h1, h2] at this
        exact this
      rw [← hbe]
      exact demandScoreRaw_mono hcb
    have hieq : demandScoreRaw ds[i] = m := le_antisymm hile hmle
    unfold demandScores
    rw [hmx]
    dsimp only
    rw [if_pos hmpos, List.getElem?_map, hrawi]
    simp only [Option.map_some']
    rw [hieq, div_self (ne_of_gt hmpos)]

/-- C3 witness: with demand column [0, 3] the second row has the maximal
demand and DemandScore exactly 1, and every score lies in [0, 1]. -/
theorem claim_C3_witness :
    (some (3 : ℚ) ∈ [some (0 : ℚ), some (3 : ℚ)] ∧ (0 : ℚ) < 3
      ∧ 1 < [some (0 : ℚ), some (3 : ℚ)].length
      ∧ (∀ j : Nat, j < [some (0 : ℚ), some (3 : ℚ)].length →
          clipD ([some (0 : ℚ), some (3 : ℚ)].getD j none)
            ≤ clipD ([some (0 : ℚ), some (3 : ℚ)].getD 1 none)))
    ∧ (demandScores [some (0 : ℚ), some (3 : ℚ)])[1]? = some 1 :=
  ⟨⟨by decide, by with_unfolding_all decide, by decide, by with_unfolding_all decide⟩,
    ((claim_C3 [some (0 : ℚ), some (3 : ℚ)]).2.2 3 (by decide)
        (by with_unfolding_all decide)).2 1 (by decide)
      (by with_unfolding_all decide)⟩

/-! Projections of the enriched frame. -/

lemma prepDf_table (t : Table) :
    (prepDf t).table = stageFilter (stageCoerce (stageRename t)) := by
  simp only [prepDf]

lemma prepDf_marketDemand (t : Table) :
    (prepDf t).marketDemand
      = marketDemandCol (stageFilter (stageCoerce (stageRename t))) := by
  simp only [prepDf]

lemma prepDf_clickGap (t : Table) :
    (prepDf t).clickGap
      = subCols
          (getNumColD (stageFilter (stageCoerce (stageRename t))) "Market Click Through Rate")
          (getNumColD (stageFilter (stageCoerce (stageRename t))) "Our Click Through Rate") := by
  simp only [prepDf]

lemma prepDf_convGap (t : Table) :
    (prepDf t).convGap
      = subCols
          (getNumColD (stageFilter (stageCoerce (stageRename t))) "Market Conversion Rate")
          (getNumColD (stageFilter (stageCoerce (stageRename t))) "Our Conversion Rate") := by
  simp only [prepDf]

lemma prepDf_shareGapPurchases (t : Table) :
    (prepDf t).shareGapPurchases
      = subCols
          (getNumColD (stageFilter (stageCoerce (stageRename t))) "Purchases - ASIN Share")
          (getNumColD (stageFilter (stageCoerce (stageRename t))) "Clicks - ASIN Share") := by
  simp only [prepDf]

lemma prepDf_demandScore (t : Table) :
    (prepDf t).demandScore
      = demandScores (marketDemandCol (stageFilter (stageCoerce (stageRename t)))) := by
  simp only [prepDf]

lemma prepDf_opportunityScore (t : Table) :
    (prepDf t).opportunityScore
      = score4 (prepDf t).demandScore (prepDf t).clickGap (prepDf t).convGap
          (prepDf t).shareGapPurchases := by
  simp only [prepDf]

lemma prepDf_bucket (t : Table) :
    (prepDf t).bucket
      = bucket4 (prepDf t).demandScore
          (getNumColD (stageFilter (stageCoerce (stageRename t))) "Impressions - ASIN Share")
          (getNumColD (stageFilter (stageCoerce (stageRename t))) "Clicks - ASIN Share")
          (getNumColD (stageFilter (stageCoerce (stageRename t))) "Purchases - ASIN Share") := by
  simp only [prepDf]

lemma prepDf_suggestedAction (t : Table) :
    (prepDf t).suggestedAction = (prepDf t).bucket.map actionOf := by
  simp only [prepDf]

/-! Lengths of the derived columns under a well-formed input. -/

lemma prepDf_lengths {t : Table} (hWF : WFTable t) :
    (prepDf t).demandScore.length = nrows (prepDf t).table
    ∧ (prepDf t).clickGap.length = nrows (prepDf t).table
    ∧ (prepDf t).convGap.length = nrows (prepDf t).table
    ∧ (prepDf t).shareGapPurchases.length = nrows (prepDf t).table
    ∧ (prepDf t).opportunityScore.length = nrows (prepDf t).table
    ∧ (prepDf t).bucket.length = nrows (prepDf t).table := by
  have hWF3 : WFTable (stageFilter (stageCoerce (stageRename t))) := WF_prepTable hWF
  set t3 := stageFilter (stageCoerce (stageRename t)) with ht3
  have hN : nrows (prepDf t).table = nrows t3 := by rw [prepDf_table]
  have hds : (prepDf t).demandScore.length = nrows t3 := by
    rw [prepDf_demandScore, length_demandScores, length_marketDemandCol hWF3]
  have hcg : (prepDf t).clickGap.length = nrows t3 := by
    rw [prepDf_clickGap, length_subCols, length_getNumColD hWF3, length_getNumColD hWF3]
    exact min_self _
  have hvg : (prepDf t).convGap.length = nrows t3 := by
    rw [prepDf_convGap, length_subCols, length_getNumColD hWF3, length_getNumColD hWF3]
    exact min_self _
  have hsgp : (prepDf t).shareGapPurchases.length = nrows t3 := by
    rw [prepDf_shareGapPurchases, length_subCols, length_getNumColD hWF3,
      length_getNumColD hWF3]
    exact min_self _
  have hosc : (prepDf t).opportunityScore.length = nrows t3 := by
    rw [prepDf_opportunityScore, length_score4, hds, hcg, hvg, hsgp]
    omega
  have hbk : (prepDf t).bucket.length = nrows t3 := by
    rw [prepDf_bucket, length_bucket4, hds, length_getNumColD hWF3,
      length_getNumColD hWF3, length_getNumColD hWF3]
    omega
  rw [hN]
  exact ⟨hds, hcg, hvg, hsgp, hosc, hbk⟩

lemma exists_getElem? {α : Type _} {l : List α} {i : Nat} (h : i < l.length) :
    ∃ a, l[i]? = some a :=
  ⟨l[i], List.getElem?_eq_getElem h⟩

lemma posQ_nonneg (x : Option ℚ) : 0 ≤ posQ x := by
  cases x with
  | none => exact le_refl 0
  | some v => exact le_max_right v 0

lemma score4_getElem? {ds : List ℝ} {xs ys zs : List (Option ℚ)} :
    ∀ {i : Nat} {d : ℝ} {a b c : Option ℚ},
      ds[i]? = some d → xs[i]? = some a → ys[i]? = some b → zs[i]? = some c →
      (score4 ds xs ys zs)[i]?
        = some (0.55 * d + 0.20 * (posQ a : ℝ) + 0.15 * (posQ b : ℝ)
            + 0.10 * (posQ c : ℝ)) := by
  induction ds generalizing xs ys zs with
  | nil => intro i d a b c h1 _ _ _; simp at h1
  | cons dh dt ih =>
    intro i d a b c h1 h2 h3 h4
    cases xs with
    | nil => simp at h2
    | cons ah xt =>
      cases ys with
      | nil => simp at h3
      | cons bh yt =>
        cases zs with
        | nil => simp at h4
        | cons ch zt =>
          cases i with
          | zero =>
            simp only [List.getElem?_cons_zero, Option.some.injEq] at h1 h2 h3 h4
            subst h1; subst h2; subst h3; subst h4
            simp only [score4, List.getElem?_cons_zero]
          | succ k =>
            simp only [List.getElem?_cons_succ] at h1 h2 h3 h4
            simpa only [score4, List.getElem?_cons_succ] using ih h1 h2 h3 h4

/-- C1: the opportunity score. For every row of the enriched frame the score
is 0.55 times DemandScore plus 0.20 times max(ClickGap, 0) plus 0.15 times
max(ConvGap, 0) plus 0.10 times max(ShareGap_Purchases, 0), where a missing
gap contributes 0 through `posQ`; the score is non-negative; and the score
column has an entry for every row (never missing). -/
theorem claim_C1 (t : Table) (hWF : WFTable t) (i : Nat)
    (hi : i < nrows (prepDf t).table) :
    ∃ (d : ℝ) (a b c : Option ℚ),
      (prepDf t).demandScore[i]? = some d
      ∧ (prepDf t).clickGap[i]? = some a
      ∧ (prepDf t).convGap[i]? = some b
      ∧ (prepDf t).shareGapPurchases[i]? = some c
      ∧ (prepDf t).opportunityScore[i]?
          = some (0.55 * d + 0.20 * (posQ a : ℝ) + 0.15 * (posQ b : ℝ)
              + 0.10 * (posQ c : ℝ))
      ∧ 0 ≤ 0.55 * d + 0.20 * (posQ a : ℝ) + 0.15 * (posQ b : ℝ) + 0.10 * (posQ c : ℝ)
      ∧ (prepDf t).opportunityScore.length = nrows (prepDf t).table := by
  obtain ⟨hds, hcg, hvg, hsgp, hosc, _⟩ := prepDf_lengths hWF
  have hid : i < (prepDf t).demandScore.length := by rw [hds]; exact hi
  have hia : i < (prepDf t).clickGap.length := by rw [hcg]; exact hi
  have hib : i < (prepDf t).convGap.length := by rw [hvg]; exact hi
  have hic : i < (prepDf t).shareGapPurchases.length := by rw [hsgp]; exact hi
  obtain ⟨d, hd⟩ := exists_getElem? hid
  obtain ⟨a, ha⟩ := exists_getElem? hia
  obtain ⟨b, hb⟩ := exists_getElem? hib
  obtain ⟨c, hc⟩ := exists_getElem? hic
  refine ⟨d, a, b, c, hd, ha, hb, hc, ?_, ?_, hosc⟩
  · rw [prepDf_opportunityScore]
    exact score4_getElem? hd ha hb hc
  · have hd0 : 0 ≤ d := by
      apply demandScores_nonneg ((prepDf t).marketDemand)
      rw [← prepDf_demandScore_eq]
      exact List.getElem?_mem hd
    have hpa : (0 : ℝ) ≤ (posQ a : ℝ) := by exact_mod_cast posQ_nonneg a
    have hpb : (0 : ℝ) ≤ (posQ b : ℝ) := by exact_mod_cast posQ_nonneg b
    have hpc : (0 : ℝ) ≤ (posQ c : ℝ) := by exact_mod_cast posQ_nonneg c
    have h1 : (0 : ℝ) ≤ 0.55 * d := mul_nonneg (by norm_num) hd0
    have h2 : (0 : ℝ) ≤ 0.20 * (posQ a : ℝ) := mul_nonneg (by norm_num) hpa
    have h3 : (0 : ℝ) ≤ 0.15 * (posQ b : ℝ) := mul_nonneg (by norm_num) hpb
    have h4 : (0 : ℝ) ≤ 0.10 * (posQ c : ℝ) := mul_nonneg (by norm_num) hpc
    linarith

/-- C1 witness: a one-row table with a keyword and 100 total impressions is
well formed, its enriched frame has one row, and the theorem yields its
score decomposition. -/
theorem claim_C1_witness :
    (WFTable [("Keyword", [Cell.str "kw"]), ("Impressions: Total Count", [Cell.num 100])]
      ∧ 0 < nrows (prepDf [("Keyword", [Cell.str "kw"]),
          ("Impressions: Total Count", [Cell.num 100])]).table)
    ∧ ∃ (d : ℝ) (a b c : Option ℚ),
        (prepDf [("Keyword", [Cell.str "kw"]),
          ("Impressions: Total Count", [Cell.num 100])]).demandScore[0]? = some d
        ∧ (prepDf [("Keyword", [Cell.str "kw"]),
            ("Impressions: Total Count", [Cell.num 100])]).clickGap[0]? = some a
        ∧ (prepDf [("Keyword", [Cell.str "kw"]),
            ("Impressions: Total Count", [Cell.num 100])]).convGap[0]? = some b
        ∧ (prepDf [("Keyword", [Cell.str "kw"]),
            ("Impressions: Total Count", [Cell.num 100])]).shareGapPurchases[0]? = some c
        ∧ (prepDf [("Keyword", [Cell.str "kw"]),
            ("Impressions: Total Count", [Cell.num 100])]).opportunityScore[0]?
            = some (0.55 * d + 0.20 * (posQ a : ℝ) + 0.15 * (posQ b : ℝ)
                + 0.10 * (posQ c : ℝ))
        ∧ 0 ≤ 0.55 * d + 0.20 * (posQ a : ℝ) + 0.15 * (posQ b : ℝ)
            + 0.10 * (posQ c : ℝ)
        ∧ (prepDf [("Keyword", [Cell.str "kw"]),
            ("Impressions: Total Count", [Cell.num 100])]).opportunityScore.length
            = nrows (prepDf [("Keyword", [Cell.str "kw"]),
                ("Impressions: Total Count", [Cell.num 100])]).table :=
  ⟨⟨by decide, by with_unfolding_all decide⟩,
    claim_C1 [("Keyword", [Cell.str "kw"]), ("Impressions: Total Count", [Cell.num 100])]
      (by decide) 0 (by with_unfolding_all decide)⟩

/-! The bucket cascade. -/

lemma bucket4_mem {ds : List ℝ} {xs ys zs : List (Option ℚ)} :
    ∀ s ∈ bucket4 ds xs ys zs, ∃ d a b c, s = bucketOf d a b c := by
  induction ds generalizing xs ys zs with
  | nil => intro s hs; simp [bucket4] at hs
  | cons dh dt ih =>
    intro s hs
    cases xs with
    | nil => simp [bucket4] at hs
    | cons ah xt =>
      cases ys with
      | nil => simp [bucket4] at hs
      | cons bh yt =>
        cases zs with
        | nil => simp [bucket4] at hs
        | cons ch zt =>
          rw [bucket4] at hs
          rcases List.mem_cons.mp hs with h1 | h1
          · exact ⟨dh, ah, bh, ch, h1⟩
          · exact ih s h1

lemma bucketOf_mem_five (d : ℝ) (imp clk pur : Option ℚ) :
    bucketOf d imp clk pur = "Ignore / Low Signal"
    ∨ bucketOf d imp clk pur = "Ranking Opportunity"
    ∨ bucketOf d imp clk pur = "Conversion Problem"
    ∨ bucketOf d imp clk pur = "PPC Scaling Opportunity"
    ∨ bucketOf d imp clk pur = "Defend Position" := by
  unfold bucketOf
  by_cases h5 : rule5Cond imp pur
  · rw [if_pos h5]; tauto
  · rw [if_neg h5]
    by_cases h4 : rule4Cond d imp clk pur
    · rw [if_pos h4]; tauto
    · rw [if_neg h4]
      by_cases h3 : rule3Cond d clk pur
      · rw [if_pos h3]; tauto
      · rw [if_neg h3]
        by_cases h2 : rule2Cond d imp clk
        · rw [if_pos h2]; tauto
        · rw [if_neg h2]; tauto

lemma bucketOf_of_rule4 {d : ℝ} {imp clk pur : Option ℚ}
    (h4 : rule4Cond d imp clk pur) :
    bucketOf d imp clk pur = "PPC Scaling Opportunity" := by
  have h5 : ¬ rule5Cond imp pur := by
    rintro ⟨hge, _⟩
    obtain ⟨_, _, hlt⟩ := h4
    cases imp with
    | none => exact Bool.noConfusion hlt
    | some v =>
      have hv1 : v < 0.06 := of_decide_eq_true hlt
      have hv2 : (0.08 : ℚ) ≤ v := of_decide_eq_true hge
      norm_num at hv1 hv2
      linarith
  unfold bucketOf
  rw [if_neg h5, if_pos h4]

/-- C2: the bucket cascade. Every row of the enriched frame carries exactly
one of the five labels and the bucket column covers every row; the rules run
in the fixed order 2, 3, 4, 5 with later matches overwriting earlier ones,
so a row satisfying both rule 2 and rule 4 receives "PPC Scaling
Opportunity" (rule 4 runs later, and rule 4's low impression share excludes
rule 5); and every comparison primitive used by the rules evaluates to false
on a missing share. -/
theorem claim_C2 (t : Table) (hWF : WFTable t) (d : ℝ) (imp clk pur : Option ℚ)
    (_h2 : rule2Cond d imp clk) (h4 : rule4Cond d imp clk pur) :
    ((prepDf t).bucket.length = nrows (prepDf t).table
      ∧ ∀ s ∈ (prepDf t).bucket,
          s = "Ignore / Low Signal" ∨ s = "Ranking Opportunity"
            ∨ s = "Conversion Problem" ∨ s = "PPC Scaling Opportunity"
            ∨ s = "Defend Position")
    ∧ bucketOf d imp clk pur = "PPC Scaling Opportunity"
    ∧ (∀ c : ℚ, oGTc none c = false ∧ oLTc none c = false ∧ oGEc none c = false
        ∧ omulc none c = none)
    ∧ (∀ x : Option ℚ, oLT none x = false ∧ oLT x none = false
        ∧ oGE none x = false ∧ oGE x none = false) := by
  refine ⟨⟨(prepDf_lengths hWF).2.2.2.2.2, ?_⟩, bucketOf_of_rule4 h4, ?_, ?_⟩
  · intro s hs
    rw [prepDf_bucket] at hs
    obtain ⟨d0, a0, b0, c0, hse⟩ := bucket4_mem s hs
    rw [hse]
    exact bucketOf_mem_five d0 a0 b0 c0
  · exact fun c => ⟨rfl, rfl, rfl, rfl⟩
  · intro x
    refine ⟨rfl, ?_, rfl, ?_⟩ <;> cases x <;> rfl

/-- C2 witness: with DemandScore 0.6, impressions share 0.05, clicks share
0.03 and purchases share 0.05, rules 2 and 4 both match and the bucket is
"PPC Scaling Opportunity". -/
theorem claim_C2_witness :
    (WFTable [("Keyword", [Cell.str "kw"])]
      ∧ rule2Cond 0.6 (some (1 / 20)) (some (3 / 100))
      ∧ rule4Cond 0.6 (some (1 / 20)) (some (3 / 100)) (some (1 / 20)))
    ∧ bucketOf 0.6 (some (1 / 20)) (some (3 / 100)) (some (1 / 20))
        = "PPC Scaling Opportunity" :=
  have h2 : rule2Cond 0.6 (some (1 / 20)) (some (3 / 100)) :=
    ⟨by norm_num, by with_unfolding_all decide, by with_unfolding_all decide⟩
  have h4 : rule4Cond 0.6 (some (1 / 20)) (some (3 / 100)) (some (1 / 20)) :=
    ⟨by norm_num, by with_unfolding_all decide, by with_unfolding_all decide⟩
  ⟨⟨by decide, h2, h4⟩,
    (claim_C2 [("Keyword", [Cell.str "kw"])] (by decide) 0.6 (some (1 / 20))
      (some (3 / 100)) (some (1 / 20)) h2 h4).2.1⟩

/-! Column-lookup preservation through the rename and coercion stages. -/

lemma getCol_setName {t : Table} {i : Nat} {n' m : String}
    (hi : ∀ c, t[i]? = some c → c.1 ≠ m) (hn : n' ≠ m) :
    getCol (setName t i n') m = getCol t m := by
  induction t generalizing i with
  | nil => simp [setName]
  | cons c rest ih =>
    cases i with
    | zero =>
      have hc : c.1 ≠ m := hi c (by simp)
      unfold setName
      simp only [List.getElem?_cons_zero]
      show getCol ((n', c.2) :: rest) m = getCol (c :: rest) m
      unfold getCol
      rw [if_neg hn, if_neg hc]
    | succ k =>
      unfold setName
      simp only [List.getElem?_cons_succ]
      cases hgk : rest[k]? with
      | none => rfl
      | some ck =>
        dsimp only
        show getCol (c :: rest.set k (n', ck.2)) m = getCol (c :: rest) m
        have hrest : getCol (setName rest k n') m = getCol rest m :=
          ih (fun d hd => hi d (by simpa using hd))
        unfold setName at hrest
        rw [hgk] at hrest
        unfold getCol
        by_cases hcm : c.1 = m
        · rw [if_pos hcm, if_pos hcm]
        · rw [if_neg hcm, if_neg hcm]
          exact hrest

lemma getCol_stageRename {t : Table} {m : String}
    (hm1 : m ≠ "Delta") (hm2 : m ≠ "Delta (CR)") (hm3 : m ≠ "Delta (CTR)") :
    getCol (stageRename t) m = getCol t m := by
  have hdelta : ∀ i ∈ deltaIdxs (headers t), ∀ c : String × List Cell,
      t[i]? = some c → c.1 ≠ m := by
    intro i hi c hc
    have hh : (headers t)[i]? = some "Delta" := (mem_deltaIdxs_iff _ i).mp hi
    unfold headers at hh
    rw [List.getElem?_map, hc] at hh
    have : c.1 = "Delta" := by simpa using hh
    rw [this]
    exact fun he => hm1 he.symm
  unfold stageRename
  cases hd : deltaIdxs (headers t) with
  | nil => rfl
  | cons i rest =>
    cases rest with
    | nil =>
      exact getCol_setName (hdelta i (by rw [hd]; simp)) (fun he => hm2 he.symm)
    | cons j rest2 =>
      have hj : ∀ c : String × List Cell, t[j]? = some c → c.1 ≠ m :=
        hdelta j (by rw [hd]; simp)
      have hj2 : ∀ c : String × List Cell, (setName t i "Delta (CR)")[j]? = some c → c.1 ≠ m := by
        intro c hc
        unfold setName at hc
        cases hgi : t[i]? with
        | none =>
          rw [hgi] at hc
          exact hj c hc
        | some ci =>
          rw [hgi] at hc
          dsimp only at hc
          by_cases hij : i = j
          · have hlen : i < t.length := (List.getElem?_eq_some.mp hgi).1
            rw [← hij] at hc
            rw [List.getElem?_set_eq_of_lt _ hlen] at hc
            have : c = ("Delta (CR)", ci.2) := by simpa using hc.symm
            rw [this]
            exact fun he => hm2 he.symm
          · rw [List.getElem?_set_ne hij] at hc
            exact hj c hc
      rw [getCol_setName hj2 (fun he => hm3 he.symm),
        getCol_setName (hdelta i (by rw [hd]; simp)) (fun he => hm2 he.symm)]

lemma getCol_setCol_ne {t : Table} {n m : String} {vs : List Cell} (h : n ≠ m) :
    getCol (setCol t n vs) m = getCol t m := by
  induction t with
  | nil => simp [setCol, getCol, h]
  | cons c rest ih =>
    unfold setCol
    by_cases hc : c.1 = n
    · rw [if_pos hc]
      unfold getCol
      rw [if_neg h, if_neg (hc ▸ h : ¬ c.1 = m)]
    · rw [if_neg hc]
      unfold getCol
      by_cases hcm : c.1 = m
      · rw [if_pos hcm, if_pos hcm]
      · rw [if_neg hcm, if_neg hcm]
        exact ih

lemma getCol_setCol_self {t : Table} {n : String} {vs : List Cell} :
    getCol (setCol t n vs) n = some vs := by
  induction t with
  | nil =>
    unfold setCol getCol
    rw [if_pos rfl]
  | cons c rest ih =>
    unfold setCol
    by_cases hc : c.1 = n
    · rw [if_pos hc]
      unfold getCol
      rw [if_pos rfl]
    · rw [if_neg hc]
      unfold getCol
      rw [if_neg hc]
      exact ih

lemma getCol_mapCol_ne {t : Table} {n m : String} {f : List Cell → List Cell}
    (h : n ≠ m) : getCol (mapCol t n f) m = getCol t m := by
  unfold mapCol
  cases getCol t n with
  | none => rfl
  | some vs => exact getCol_setCol_ne h

lemma getCol_coerceCols_ne {t : Table} {names : List String} {m : String}
    {f : List Cell → List Cell} (h : m ∉ names) :
    getCol (coerceCols t names f) m = getCol t m := by
  induction names generalizing t with
  | nil => rfl
  | cons n rest ih =>
    have hn : n ≠ m := fun he => h (he ▸ List.mem_cons_self n rest)
    have hr : m ∉ rest := fun he => h (List.mem_cons_of_mem n he)
    unfold coerceCols
    rw [List.foldl_cons]
    have := ih (t := mapCol t n f) hr
    unfold coerceCols at this
    rw [this, getCol_mapCol_ne hn]

lemma getCol_stageCoerce_keyword (t : Table) :
    getCol (stageCoerce t) "Keyword" = getCol t "Keyword" := by
  unfold stageCoerce
  rw [getCol_coerceCols_ne (by decide), getCol_coerceCols_ne (by decide),
    getCol_coerceCols_ne (by decide), getCol_coerceCols_ne (by decide)]

lemma getCol_map_snd {t : Table} {m : String} {f : List Cell → List Cell} :
    getCol (t.map (fun c => (c.1, f c.2))) m = (getCol t m).map f := by
  induction t with
  | nil => rfl
  | cons c rest ih =>
    unfold getCol
    by_cases hc : c.1 = m
    · rw [List.map_cons]
      dsimp only
      rw [if_pos hc, if_pos hc]
      rfl
    · rw [List.map_cons]
      dsimp only
      rw [if_neg hc, if_neg hc]
      exact ih

lemma applyMask_map_filter {α : Type _} (l : List α) (p : α → Bool) (f : α → Cell) :
    applyMask (l.map p) (l.map f) = (l.filter p).map f := by
  induction l with
  | nil => rfl
  | cons x rest ih =>
    simp only [List.map_cons]
    unfold applyMask
    cases hp : p x with
    | true => simp [List.filter_cons, hp, ih]
    | false => simp [List.filter_cons, hp, ih]

lemma stageFilter_keyword {t : Table} {ks : List Cell}
    (hg : getCol t "Keyword" = some ks) :
    getCol (stageFilter t) "Keyword"
      = some (((ks.map (fun c => strTrim (cellToStr c))).filter keepKeyword).map
          Cell.str) := by
  unfold stageFilter
  rw [hg]
  dsimp only
  rw [getCol_map_snd, getCol_setCol_self]
  dsimp only [Option.map_some']
  congr 1
  have h1 : (ks.map (fun c => strTrim (cellToStr c))).map keepKeyword
      = ((ks.map (fun c => strTrim (cellToStr c))).map keepKeyword) := rfl
  rw [show ((ks.map (fun c => strTrim (cellToStr c))).map Cell.str)
      = ((ks.map (fun c => strTrim (cellToStr c))).map Cell.str) from rfl]
  exact applyMask_map_filter (ks.map (fun c => strTrim (cellToStr c))) keepKeyword Cell.str

/-- C6, counterexample to the claim as stated: the keyword filter only runs
when a "Keyword" column exists. A one-row table without that column keeps
its row, even though the row lacks a Keyword field, and the surviving row
has no keyword at all — contradicting both halves of the claim. -/
theorem claim_C6_counterexample :
    nrows (prepDf [("X", [Cell.num 1])]).table = 1
    ∧ getCol (prepDf [("X", [Cell.num 1])]).table "Keyword" = none := by
  refine ⟨?_, ?_⟩ <;> with_unfolding_all decide

/-- C6, amended: when the table has a Keyword column, the pipeline's output
keyword column is exactly the stringified, trimmed keywords that are neither
empty nor the literal "nan", in input order (a missing keyword cell
stringifies to "nan" and is dropped); every surviving keyword is a non-empty
trimmed string other than "nan"; and the output row count equals the number
of surviving keywords, so a dropped row is absent from every column. A table
without a Keyword column is left unfiltered. -/
theorem claim_C6 (t : Table) (hWF : WFTable t) (ks : List Cell)
    (hg : getCol t "Keyword" = some ks) :
    getCol (prepDf t).table "Keyword"
      = some (((ks.map (fun c => strTrim (cellToStr c))).filter keepKeyword).map
          Cell.str)
    ∧ (∀ c ∈ ((ks.map (fun c => strTrim (cellToStr c))).filter keepKeyword).map
          Cell.str, ∃ s, c = Cell.str s ∧ s ≠ "" ∧ s ≠ "nan")
    ∧ nrows (prepDf t).table
        = ((ks.map (fun c => strTrim (cellToStr c))).filter keepKeyword).length := by
  have hg2 : getCol (stageCoerce (stageRename t)) "Keyword" = some ks := by
    rw [getCol_stageCoerce_keyword,
      getCol_stageRename (by decide) (by decide) (by decide), hg]
  have hout : getCol (prepDf t).table "Keyword"
      = some (((ks.map (fun c => strTrim (cellToStr c))).filter keepKeyword).map
          Cell.str) := by
    rw [prepDf_table]
    exact stageFilter_keyword hg2
  refine ⟨hout, ?_, ?_⟩
  · intro c hc
    obtain ⟨s, hs, hse⟩ := List.mem_map.mp hc
    have hkeep : keepKeyword s = true := (List.mem_filter.mp hs).2
    have hprop : s ≠ "" ∧ s ≠ "nan" := by
      unfold keepKeyword at hkeep
      simp only [Bool.and_eq_true, Bool.not_eq_true', beq_eq_false_iff_ne] at hkeep
      exact hkeep
    exact ⟨s, hse.symm, hprop.1, hprop.2⟩
  · have hWF3 : WFTable (prepDf t).table := by
      rw [prepDf_table]
      exact WF_prepTable hWF
    have hmem := getCol_mem hout
    have := hWF3 _ hmem
    simp only [List.length_map] at this
    exact this.symm

/-- C6 witness: keywords [" ok ", "", missing] leave exactly one row, whose
keyword is the trimmed non-empty string "ok"; the other column shrinks with
it. -/
theorem claim_C6_witness :
    (WFTable [("Keyword", [Cell.str " ok ", Cell.str "", Cell.na]),
        ("X", [Cell.num 1, Cell.num 2, Cell.num 3])]
      ∧ getCol [("Keyword", [Cell.str " ok ", Cell.str "", Cell.na]),
          ("X", [Cell.num 1, Cell.num 2, Cell.num 3])] "Keyword"
          = some [Cell.str " ok ", Cell.str "", Cell.na])
    ∧ nrows (prepDf [("Keyword", [Cell.str " ok ", Cell.str "", Cell.na]),
        ("X", [Cell.num 1, Cell.num 2, Cell.num 3])]).table
        = (([Cell.str " ok ", Cell.str "", Cell.na].map
            (fun c => strTrim (cellToStr c))).filter keepKeyword).length :=
  ⟨⟨by decide, by decide⟩,
    (claim_C6 [("Keyword", [Cell.str " ok ", Cell.str "", Cell.na]),
        ("X", [Cell.num 1, Cell.num 2, Cell.num 3])] (by decide)
      [Cell.str " ok ", Cell.str "", Cell.na] (by decide)).2.2⟩

/-! The column normalizer, as the code executes it. -/

/-- Embeds `_clean_col` as it actually runs. A None header returns "" at
once. For any other header the function strips and rewrites newlines, but
its next statement applies re.sub while the module never imports re, so the
call raises NameError before returning anything. -/
def cleanCol (c : Option String) : Except String String :=
  match c with
  | none => Except.ok ""
  | some s =>
    let _s1 := s.trim
    let _s2 := _s1.replace "\n" " "
    Except.error "NameError: name re is not defined"

/-- C7, the code at the claimed behavior: a None header maps to "", but any
actual header string raises NameError, because `_clean_col` calls re.sub and
the module imports only io, math, pandas, numpy and streamlit — never re.
The claimed trimming and whitespace collapsing is unreachable. -/
theorem claim_C7 :
    cleanCol (some "Keyword") = Except.error "NameError: name re is not defined"
    ∧ cleanCol (some "  Search\nQuery  ") =
        Except.error "NameError: name re is not defined"
    ∧ cleanCol none = Except.ok "" :=
  ⟨rfl, rfl, rfl⟩

/-! The empty-data behavior. -/

/-- The module-level guard (lines 281-285): the app stops and prompts for
input when no frame was loaded or the raw frame is empty; otherwise prep_df
is called. -/
def moduleGuardStops : Option Table → Bool
  | none => true
  | some tb => tb.isEmpty || decide (nrows tb = 0)

/-- C8, the code at the failing input: a table whose single keyword is empty
passes the module guard (it is non-empty), and prep_df returns an ordinary
zero-row enriched frame — identical to the one produced for an input that
already had zero rows. No "no usable data" signal distinct from an ordinary
empty result exists anywhere in the core. -/
theorem claim_C8 :
    moduleGuardStops (some [("Keyword", [Cell.str ""]),
        ("Impressions: Total Count", [Cell.num 5])]) = false
    ∧ nrows (prepDf [("Keyword", [Cell.str ""]),
        ("Impressions: Total Count", [Cell.num 5])]).table = 0
    ∧ prepDf [("Keyword", [Cell.str ""]), ("Impressions: Total Count", [Cell.num 5])]
        = prepDf [("Keyword", []), ("Impressions: Total Count", [])]
    ∧ moduleGuardStops none = true
    ∧ moduleGuardStops (some [("Keyword", []), ("Impressions: Total Count", [])])
        = true := by
  refine ⟨by decide, by with_unfolding_all decide, ?_, by decide, by decide⟩
  with_unfolding_all rfl

/-- C9: determinism of the pipeline. prep_df reads nothing but its argument
in the model, so equal raw inputs give equal enriched frames, every
canonical and derived column included. -/
theorem claim_C9 (t u : Table) (h : t = u) : prepDf t = prepDf u := by
  rw [h]

/-- C9 witness: two runs on the same concrete table give the same frame. -/
theorem claim_C9_witness :
    ([("Keyword", [Cell.str "a"])] : Table) = [("Keyword", [Cell.str "a"])]
    ∧ prepDf [("Keyword", [Cell.str "a"])] = prepDf [("Keyword", [Cell.str "a"])] :=
  ⟨rfl, claim_C9 _ _ rfl⟩

/-! The frame-effect of prep_df, on an explicit heap of python objects. -/

/-- A heap object: a raw dataframe, or the enriched frame prep_df builds. -/
inductive Obj where
  | raw : Table → Obj
  | enriched : PrepResult → Obj

/-- The dataframe a reference designates. -/
def asTable : Obj → Table
  | .raw t => t
  | .enriched p => p.table

/-- A heap: object store plus allocation counter. -/
structure Heap where
  objs : Nat → Obj
  next : Nat

/-- Write one heap cell. -/
def writeObj (f : Nat → Obj) (i : Nat) (o : Obj) : Nat → Obj :=
  fun j => if j = i then o else f j

/-- prep_df as a heap program, mirroring where each statement writes.
`df = df.copy()` (line 157) allocates a fresh object before anything else;
the header rename and the coercion loops mutate that copy in place (lines
159-186, and line 190 for the keyword column); `df = df[mask]` (line 191)
rebinds df to a freshly built filtered frame; the derived-column
assignments (lines 194-248) mutate that frame, which is returned. The
caller's object is never written. -/
noncomputable def prepProg (h : Heap) (r : Nat) : Heap × Nat :=
  let t := asTable (h.objs r)
  let d1 := h.next
  let f1 := writeObj h.objs d1 (Obj.raw t)
  let f2 := writeObj f1 d1 (Obj.raw (stageRename t))
  let f3 := writeObj f2 d1 (Obj.raw (stageCoerce (stageRename t)))
  let d2 := h.next + 1
  let f4 := writeObj f3 d2 (Obj.raw (stageFilter (stageCoerce (stageRename t))))
  let f5 := writeObj f4 d2 (Obj.enriched (prepDf t))
  (⟨f5, h.next + 2⟩, d2)

/-- C10: prep_df does not mutate the caller's table. After the heap program
runs, the caller's reference holds exactly the object it held before, and
the returned reference holds the enriched frame computed from the caller's
table. -/
theorem claim_C10 (h : Heap) (r : Nat) (hr : r < h.next) :
    (prepProg h r).1.objs r = h.objs r
    ∧ (prepProg h r).1.objs (prepProg h r).2
        = Obj.enriched (prepDf (asTable (h.objs r))) := by
  have h1 : ¬ (r = h.next) := by omega
  have h2 : ¬ (r = h.next + 1) := by omega
  constructor
  · simp only [prepProg, writeObj]
    rw [if_neg h2, if_neg h2, if_neg h1, if_neg h1, if_neg h1]
  · simp [prepProg, writeObj]

/-- C10 witness: a singleton heap runs prep_df on reference 0 and keeps the
caller's object intact while the result lands in a fresh object. -/
theorem claim_C10_witness :
    0 < (Heap.mk (fun _ => Obj.raw [("Keyword", [Cell.str "a"])]) 1).next
    ∧ ((prepProg (Heap.mk (fun _ => Obj.raw [("Keyword", [Cell.str "a"])]) 1) 0).1.objs 0
        = (Heap.mk (fun _ => Obj.raw [("Keyword", [Cell.str "a"])]) 1).objs 0
      ∧ (prepProg (Heap.mk (fun _ => Obj.raw [("Keyword", [Cell.str "a"])]) 1) 0).1.objs
          (prepProg (Heap.mk (fun _ => Obj.raw [("Keyword", [Cell.str "a"])]) 1) 0).2
        = Obj.enriched (prepDf (asTable
            ((Heap.mk (fun _ => Obj.raw [("Keyword", [Cell.str "a"])]) 1).objs 0)))) :=
  ⟨by decide, claim_C10 (Heap.mk (fun _ => Obj.raw [("Keyword", [Cell.str "a"])]) 1) 0
    (by decide)⟩

end SQA
